import Mathlib

/-!
# SHA-0 (`sha_0.go`): a shallow embedding and its verification

The Go program keeps the five hash words `h0 .. h4` in package-level variables,
so `sha0` is embedded as a function from the package state and the message to
the digest and the new package state.  Slices are lists of bytes, `uint32`
values are natural numbers reduced modulo `2^32` wherever Go truncates, and
`int` / `uint` are the 64-bit types of a 64-bit platform (arithmetic on them
wraps modulo `2^64`).  A slice expression or an index that Go would reject
with a run-time panic yields `none`.  The values of type `[]byte` are the lists
of at most `maxAlloc` bytes: the runtime allocates no more.
-/

namespace Sha0

/-! ## Machine types -/

/-- A Go `byte`. -/
abbrev Byte := Fin 256

/-- The value an `int` holds after a computation whose mathematical result is `x`:
wrap-around to the 64-bit signed range. -/
def wrapInt (x : Int) : Int :=
  (x + 9223372036854775808) % 18446744073709551616 - 9223372036854775808

/-- The allocation limit `maxAlloc` of the Go runtime on a 64-bit platform,
`1 << 48` bytes: `make` and `append` panic instead of allocating more, so every
`[]byte` value a program holds has at most this many bytes. -/
def maxAlloc : Nat := 281474976710656

/-- The conversion `uint64(x)` of an `int`. -/
def toUint64 (x : Int) : Nat := (x % 18446744073709551616).toNat

/-- The conversion `byte(v)` of an unsigned integer: the low eight bits. -/
def toByte (v : Nat) : Byte := Fin.ofNat v

/-- Addition of two `uint32` values. -/
def add32 (x y : Nat) : Nat := (x + y) % 4294967296

/-- The bitwise complement `^x` of a `uint32`, which Go defines as `0xFFFFFFFF ^ x`. -/
def not32 (x : Nat) : Nat := 0xFFFFFFFF ^^^ x

/-! ## Package-level variables -/

/-- The package-level variables `h0 .. h4`. -/
structure State where
  h0 : Nat
  h1 : Nat
  h2 : Nat
  h3 : Nat
  h4 : Nat
deriving DecidableEq, Repr

/-- The values `h0 .. h4` are declared with (lines 9-13). -/
def initState : State :=
  ⟨0x67452301, 0xEFCDAB89, 0x98BADCFE, 0x10325476, 0xC3D2E1F0⟩

/-- The round constants `K` (line 16). -/
def K : List Nat := [0x5A827999, 0x6ED9EBA1, 0x8F1BBCDC, 0xCA62C1D6]

/-! ## `encoding/binary` and slicing -/

/-- The bytes `binary.BigEndian.PutUint64` stores into an 8-byte slice. -/
def putUint64 (v : Nat) : List Byte :=
  [toByte (v >>> 56), toByte (v >>> 48), toByte (v >>> 40), toByte (v >>> 32),
   toByte (v >>> 24), toByte (v >>> 16), toByte (v >>> 8), toByte v]

/-- The bytes `binary.BigEndian.PutUint32` stores into the first four bytes of its
argument. -/
def putUint32 (v : Nat) : List Byte :=
  [toByte (v >>> 24), toByte (v >>> 16), toByte (v >>> 8), toByte v]

/-- The function `binary.BigEndian.Uint32`: it reads `b[0] .. b[3]` and panics when
`b` is shorter than four bytes. -/
def uint32BE (b : List Byte) : Option Nat :=
  match b with
  | b0 :: b1 :: b2 :: b3 :: _ =>
      some (b3.val ||| (b2.val <<< 8) ||| (b1.val <<< 16) ||| (b0.val <<< 24))
  | _ => none

/-- The slice expression `s[lo:hi]`.  It is taken to fail as soon as `hi` exceeds
the length of `s` (Go only fails beyond the capacity; the bytes between length
and capacity are never meant to be read). -/
def slice (s : List Byte) (lo hi : Nat) : Option (List Byte) :=
  if lo ≤ hi ∧ hi ≤ s.length then some ((s.drop lo).take (hi - lo)) else none

/-! ## `padMessage` (lines 19-34) -/

/-- The loop condition `(len(message)*8)%512 != 448` of line 24, for a slice of
length `len`: the product wraps as an `int`, and `%` is the truncated remainder of Go. -/
def padGuard (len : Nat) : Bool :=
  Int.tmod (wrapInt ((len : Int) * 8)) 512 != 448

/-- The zero-fill loop of lines 24-26. -/
def padLoop (message : List Byte) : List Byte :=
  if h : padGuard message.length = true then padLoop (message ++ [0x00]) else message
termination_by
  (2305843009213693952 + 56 - message.length % 2305843009213693952) % 2305843009213693952
decreasing_by
  simp only [List.length_append, List.length_singleton]
  have h56 : message.length % 2305843009213693952 ≠ 56 := by
    intro hm
    have hw : wrapInt ((message.length : Int) * 8) = 448 := by
      unfold wrapInt
      omega
    rw [padGuard, hw] at h
    exact absurd h (by decide)
  omega

/-- The function `padMessage`. -/
def padMessage (message : List Byte) : List Byte :=
  let origLen := wrapInt ((message.length : Int) * 8)
  let message := message ++ [0x80]
  let message := padLoop message
  let lenBytes := putUint64 (toUint64 origLen)
  message ++ lenBytes

/-- The number a byte sequence denotes when it is read as an unsigned big-endian
integer (most significant byte first). -/
def beValue (bs : List Byte) : Nat := bs.foldl (fun acc b => acc * 256 + b.val) 0

/-! ## `leftRotate` (lines 105-107) -/

/-- The function `leftRotate`: `value` is a `uint32` and `bits` a `uint`, so the
left shift is truncated to 32 bits and `32 - bits` wraps modulo `2^64`. -/
def leftRotate (value bits : Nat) : Nat :=
  ((value <<< bits) % 4294967296) |||
    (value >>> ((32 + 18446744073709551616 - bits) % 18446744073709551616))

/-! ## `sha0` (lines 37-102) -/

/-- The body of the loop of lines 45-47: `W[j]` receives the big-endian word read
from `message[i+j*4 : i+j*4+4]`. -/
def loadWord (message : List Byte) (i : Nat) (W : List Nat) (j : Nat) : Option (List Nat) := do
  let s ← slice message (i + j * 4) (i + j * 4 + 4)
  let w ← uint32BE s
  pure (W.set j w)

/-- The loop `for j := range 16` of lines 45-47. -/
def loadWords (message : List Byte) (i : Nat) (W : List Nat) : Option (List Nat) :=
  (List.range 16).foldlM (loadWord message i) W

/-- The body of the loop of lines 50-52: `W[j]` by the recurrence without rotation. -/
def extendWord (W : List Nat) (j : Nat) : List Nat :=
  W.set j (W.getD (j - 3) 0 ^^^ W.getD (j - 8) 0 ^^^ W.getD (j - 14) 0 ^^^ W.getD (j - 16) 0)

/-- The loop `for j := 16; j < 80; j++` of lines 50-52. -/
def extendWords (W : List Nat) : List Nat :=
  (List.range' 16 64).foldl extendWord W

/-- The working variables `a, b, c, d, e`. -/
structure Vars where
  a : Nat
  b : Nat
  c : Nat
  d : Nat
  e : Nat
deriving DecidableEq, Repr

/-- One pass through the body of the main loop (lines 59-82) for round `j`. -/
def round (W : List Nat) (v : Vars) (j : Nat) : Vars :=
  let fk : Nat × Nat :=
    if j < 20 then ((v.b &&& v.c) ||| (not32 v.b &&& v.d), K.getD 0 0)
    else if j < 40 then (v.b ^^^ v.c ^^^ v.d, K.getD 1 0)
    else if j < 60 then ((v.b &&& v.c) ||| (v.b &&& v.d) ||| (v.c &&& v.d), K.getD 2 0)
    else (v.b ^^^ v.c ^^^ v.d, K.getD 3 0)
  let temp := add32 (add32 (add32 (add32 (leftRotate v.a 5) fk.1) v.e) fk.2) (W.getD j 0)
  ⟨temp, v.a, leftRotate v.b 30, v.c, v.d⟩

/-- The main loop of lines 58-83. -/
def mainLoop (W : List Nat) (v : Vars) : Vars :=
  (List.range 80).foldl (round W) v

/-- The body of the block loop (lines 43-90) for the block at offset `i`. -/
def processBlock (message : List Byte) (i : Nat) (st : State) : Option State := do
  let W ← loadWords message i (List.replicate 80 0)
  let W := extendWords W
  let v := mainLoop W ⟨st.h0, st.h1, st.h2, st.h3, st.h4⟩
  pure ⟨add32 st.h0 v.a, add32 st.h1 v.b, add32 st.h2 v.c, add32 st.h3 v.d, add32 st.h4 v.e⟩

/-- The block loop `for i := 0; i < len(message); i += 64` of line 42, entered
with loop variable `i` (an `int`, which `i += 64` cannot overflow while the slice
is shorter than `2^63 - 64` bytes). -/
def blockLoop (message : List Byte) (i : Nat) (st : State) : Option State :=
  if i < message.length then
    match processBlock message i st with
    | none => none
    | some st1 => blockLoop message (i + 64) st1
  else some st
termination_by message.length - i

/-- The digest assembled in lines 94-99. -/
def digestOf (st : State) : List Byte :=
  putUint32 st.h0 ++ putUint32 st.h1 ++ putUint32 st.h2 ++ putUint32 st.h3 ++ putUint32 st.h4

/-- The function `sha0`, called with the package variables holding `st`: it returns
the digest and the values the package variables hold afterwards. -/
def sha0 (st : State) (message : List Byte) : Option (List Byte × State) :=
  let message := padMessage message
  match blockLoop message 0 st with
  | none => none
  | some st' => some (digestOf st', st')

/-- The message schedule as `sha0` builds it from sixteen words `X`: the array `W`
holds `X` in `W[0 .. 15]` and zeros elsewhere when the loop of lines 50-52 starts. -/
def expand (X : List Nat) : List Nat :=
  extendWords (X ++ List.replicate 64 0)

/-! ## `hashToHex` (lines 110-112) -/

/-- The digit table `ldigits` of package `fmt`. -/
def ldigits : String := "0123456789abcdefx"

/-- What the verb `%x` of package `fmt` writes for a byte array: for each byte `c`,
in order, the two digits `ldigits[c>>4]` and `ldigits[c&0xF]` are appended to the
buffer. -/
def fmtSbx (b : List Byte) : List Char :=
  b.foldl (fun buf c => buf ++ [ldigits.data.getD (c.val >>> 4) '0', ldigits.data.getD (c.val &&& 0xF) '0']) []

/-- The function `hashToHex`, that is `fmt.Sprintf("%x", hash)`. -/
def hashToHex (hash : List Byte) : String :=
  String.mk (fmtSbx hash)

/-! ## The SHA-0 definition as the specification words it

These definitions follow the text of the specification, not the Go source; they
are what `sha0` is compared with. -/

/-- The `t`-th big-endian 32-bit word of a block: bytes `4t .. 4t+3`, most
significant byte first. -/
def specWord (block : List Byte) (t : Nat) : Nat :=
  (block.getD (4 * t) 0).val * 16777216 + (block.getD (4 * t + 1) 0).val * 65536 +
    (block.getD (4 * t + 2) 0).val * 256 + (block.getD (4 * t + 3) 0).val

/-- The first `n` words of the message schedule of a block: the 16 words of the
block, then `W[t] = W[t-3] XOR W[t-8] XOR W[t-14] XOR W[t-16]`, with no rotation. -/
def specSchedule (block : List Byte) : Nat → List Nat
  | 0 => []
  | t + 1 =>
    let W := specSchedule block t
    W ++ [if t < 16 then specWord block t
          else W.getD (t - 3) 0 ^^^ W.getD (t - 8) 0 ^^^ W.getD (t - 14) 0 ^^^ W.getD (t - 16) 0]

/-- The round function of round `t`, by quartile: IF, XOR, Majority, XOR. -/
def specF (t b c d : Nat) : Nat :=
  if t < 20 then (b &&& c) ||| (not32 b &&& d)
  else if t < 40 then b ^^^ c ^^^ d
  else if t < 60 then (b &&& c) ||| (b &&& d) ||| (c &&& d)
  else b ^^^ c ^^^ d

/-- The round constant of round `t`, by quartile. -/
def specK (t : Nat) : Nat :=
  if t < 20 then 0x5A827999
  else if t < 40 then 0x6ED9EBA1
  else if t < 60 then 0x8F1BBCDC
  else 0xCA62C1D6

/-- Round `t`: `temp = leftRotate(a,5) + f + e + k + W[t]` modulo `2^32`, then
`e = d; d = c; c = leftRotate(b,30); b = a; a = temp`. -/
def specRound (W : List Nat) (t : Nat) (v : Vars) : Vars :=
  { a := (leftRotate v.a 5 + specF t v.b v.c v.d + v.e + specK t + W.getD t 0) % 4294967296
    b := v.a
    c := leftRotate v.b 30
    d := v.c
    e := v.d }

/-- The working variables after the first `n` rounds. -/
def specRounds (W : List Nat) : Nat → Vars → Vars
  | 0, v => v
  | t + 1, v => specRound W t (specRounds W t v)

/-- The compression function: 80 rounds over the schedule of the block, started
from the state, and the result added word-wise modulo `2^32` into the state. -/
def specCompress (s : State) (block : List Byte) : State :=
  let v := specRounds (specSchedule block 80) 80 ⟨s.h0, s.h1, s.h2, s.h3, s.h4⟩
  ⟨(s.h0 + v.a) % 4294967296, (s.h1 + v.b) % 4294967296, (s.h2 + v.c) % 4294967296,
   (s.h3 + v.d) % 4294967296, (s.h4 + v.e) % 4294967296⟩

/-- The consecutive non-overlapping 64-byte blocks of a byte sequence, in order. -/
def specBlocks (p : List Byte) : List (List Byte) :=
  (List.range (p.length / 64)).map (fun k => (p.drop (64 * k)).take 64)

/-- The four bytes of a 32-bit word, most significant first. -/
def specWordBytes (w : Nat) : List Byte :=
  [toByte (w / 16777216), toByte (w / 65536), toByte (w / 256), toByte w]

/-- The 20-byte big-endian concatenation of the five state words. -/
def specDigest (s : State) : List Byte :=
  specWordBytes s.h0 ++ specWordBytes s.h1 ++ specWordBytes s.h2 ++ specWordBytes s.h3 ++
    specWordBytes s.h4

/-- The SHA-0 digest of the specification: the compression function folded over the
blocks of the padded message, from the five initial constants. -/
def specSha0 (M : List Byte) : List Byte :=
  specDigest
    ((specBlocks (padMessage M)).foldl specCompress
      ⟨0x67452301, 0xEFCDAB89, 0x98BADCFE, 0x10325476, 0xC3D2E1F0⟩)

/-! ## Padding: the loop condition and the shape of the result -/

theorem tmod_512_nonpos (w : Int) (hw : w < 0) : Int.tmod w 512 ≤ 0 := by
  obtain ⟨n, rfl⟩ := Int.eq_negSucc_of_lt_zero hw
  have h : Int.tmod (Int.negSucc n) 512 = -(((n + 1) % 512 : Nat) : Int) := rfl
  rw [h]
  omega

theorem padGuard_eq_false_iff (L : Nat) :
    padGuard L = false ↔
      (L % 64 = 56 ∧ L % 2305843009213693952 < 1152921504606846976) := by
  unfold padGuard
  rw [bne_eq_false_iff_eq]
  rcases Int.lt_or_le (wrapInt ((L : Int) * 8)) 0 with hneg | hpos
  · have h1 := tmod_512_nonpos _ hneg
    unfold wrapInt at hneg
    constructor
    · intro h
      omega
    · intro h
      omega
  · rw [Int.tmod_eq_emod hpos (by decide)]
    unfold wrapInt at hpos ⊢
    omega

theorem padGuard_eq_true_iff (L : Nat) :
    padGuard L = true ↔
      ¬ (L % 64 = 56 ∧ L % 2305843009213693952 < 1152921504606846976) := by
  rw [← padGuard_eq_false_iff]
  cases padGuard L <;> simp

theorem padLoop_unfold (m : List Byte) :
    padLoop m = if padGuard m.length = true then padLoop (m ++ [0x00]) else m := by
  rw [padLoop]
  split <;> rfl

theorem padLoop_zeros (k : Nat) : ∀ (m : List Byte),
    (∀ i, i < k → padGuard (m.length + i) = true) → padGuard (m.length + k) = false →
    padLoop m = m ++ List.replicate k 0x00 := by
  induction k with
  | zero =>
    intro m _ hend
    rw [padLoop_unfold]
    simp at hend
    simp [hend]
  | succ k ih =>
    intro m hlt hend
    rw [padLoop_unfold]
    have h0 : padGuard m.length = true := by simpa using hlt 0 (Nat.succ_pos k)
    rw [if_pos h0, ih (m ++ [0x00])]
    · simp [List.replicate_succ]
    · intro i hi
      have := hlt (i + 1) (by omega)
      simpa [Nat.add_assoc, Nat.add_comm 1 i] using this
    · simpa [Nat.add_assoc, Nat.add_comm 1 k] using hend

theorem padGuard_exit_exists (L : Nat) : ∃ k, padGuard (L + k) = false := by
  refine ⟨(2305843009213693952 + 56 - L % 2305843009213693952) % 2305843009213693952, ?_⟩
  rw [padGuard_eq_false_iff]
  omega

theorem padLoop_shape (m : List Byte) :
    ∃ k, padLoop m = m ++ List.replicate k 0x00 ∧ padGuard (m.length + k) = false ∧
      ∀ i, i < k → padGuard (m.length + i) = true := by
  classical
  have hex := padGuard_exit_exists m.length
  refine ⟨Nat.find hex, ?_, Nat.find_spec hex, ?_⟩
  · apply padLoop_zeros
    · intro i hi
      have := Nat.find_min hex hi
      simpa using this
    · exact Nat.find_spec hex
  · intro i hi
    have := Nat.find_min hex hi
    simpa using this

theorem padMessage_shape (M : List Byte) :
    ∃ k, padMessage M =
        M ++ [0x80] ++ List.replicate k 0x00 ++ putUint64 (toUint64 (wrapInt ((M.length : Int) * 8))) ∧
      padGuard (M.length + 1 + k) = false ∧
      ∀ i, i < k → padGuard (M.length + 1 + i) = true := by
  obtain ⟨k, hk, hend, hlt⟩ := padLoop_shape (M ++ [0x80])
  refine ⟨k, ?_, ?_, ?_⟩
  · simp only [padMessage, hk]
  · simpa using hend
  · intro i hi
    simpa using hlt i hi

theorem putUint64_length (v : Nat) : (putUint64 v).length = 8 := rfl

theorem toUint64_wrapInt_len (L : Nat) :
    toUint64 (wrapInt ((L : Int) * 8)) = (8 * L) % 18446744073709551616 := by
  unfold toUint64 wrapInt
  omega

theorem beValue_putUint64 (v : Nat) (h : v < 18446744073709551616) :
    beValue (putUint64 v) = v := by
  simp only [beValue, putUint64, toByte, Fin.ofNat, List.foldl_cons, List.foldl_nil,
    Nat.shiftRight_eq_div_pow]
  norm_num
  omega

theorem padMessage_eq_of_small (M : List Byte) (h : M.length < 1152921504606846968) :
    padMessage M =
      M ++ [0x80] ++ List.replicate ((119 - M.length % 64) % 64) 0x00 ++ putUint64 (8 * M.length) := by
  have hz : padLoop (M ++ [0x80]) =
      (M ++ [0x80]) ++ List.replicate ((119 - M.length % 64) % 64) 0x00 := by
    apply padLoop_zeros
    · intro i hi
      rw [padGuard_eq_true_iff]
      simp only [List.length_append, List.length_singleton]
      omega
    · rw [padGuard_eq_false_iff]
      simp only [List.length_append, List.length_singleton]
      omega
  have hl : toUint64 (wrapInt ((M.length : Int) * 8)) = 8 * M.length := by
    rw [toUint64_wrapInt_len]
    omega
  simp only [padMessage, hz, hl]

theorem blockLoop_step (m : List Byte) (i : Nat) (st st' : State) (hi : i < m.length)
    (hp : processBlock m i st = some st') : blockLoop m i st = blockLoop m (i + 64) st' := by
  rw [blockLoop, if_pos hi, hp]

theorem blockLoop_done (m : List Byte) (i : Nat) (st : State) (hi : ¬ i < m.length) :
    blockLoop m i st = some st := by
  rw [blockLoop, if_neg hi]

theorem blockLoop_fail (m : List Byte) (i : Nat) (st : State) (hi : i < m.length)
    (hp : processBlock m i st = none) : blockLoop m i st = none := by
  rw [blockLoop, if_pos hi, hp]

theorem padMessage_length_facts (M : List Byte) :
    (padMessage M).length % 64 = 0 ∧ M.length + 9 ≤ (padMessage M).length := by
  obtain ⟨k, hk, hend, -⟩ := padMessage_shape M
  rw [padGuard_eq_false_iff] at hend
  rw [hk]
  simp only [List.length_append, List.length_singleton, List.length_replicate, putUint64_length]
  omega

/-- C7. For every message `M`, the length of `padMessage M` is a multiple of 64
and at least `len(M) + 9`. -/
theorem padMessage_length_invariant (M : List Byte) :
    (padMessage M).length % 64 = 0 ∧ M.length + 9 ≤ (padMessage M).length :=
  padMessage_length_facts M

/-- C8. For every message `M` shorter than `2^61` bytes, `padMessage M` is `M`
unchanged, one byte `0x80` at index `len(M)`, only `0x00` bytes up to index
`len(padMessage M) - 9`, and a final group of 8 bytes whose big-endian value is
`8 * len(M)`, the bit length of the original message. -/
theorem padMessage_layout (M : List Byte) (h : M.length < 2305843009213693952) :
    padMessage M =
        M ++ [0x80] ++ List.replicate ((padMessage M).length - M.length - 9) 0x00 ++
          (padMessage M).drop ((padMessage M).length - 8) ∧
      ((padMessage M).drop ((padMessage M).length - 8)).length = 8 ∧
      beValue ((padMessage M).drop ((padMessage M).length - 8)) = 8 * M.length ∧
      M.length + 9 ≤ (padMessage M).length := by
  obtain ⟨k, hk, -, -⟩ := padMessage_shape M
  have hl : toUint64 (wrapInt ((M.length : Int) * 8)) = 8 * M.length := by
    rw [toUint64_wrapInt_len]
    omega
  rw [hl] at hk
  have hlen : (padMessage M).length = M.length + 1 + k + 8 := by
    rw [hk]
    simp only [List.length_append, List.length_singleton, List.length_replicate, putUint64_length]
  have hdrop : (padMessage M).drop ((padMessage M).length - 8) = putUint64 (8 * M.length) := by
    rw [hlen, hk]
    have : M.length + 1 + k + 8 - 8 = (M ++ [0x80] ++ List.replicate k (0x00 : Byte)).length := by
      simp only [List.length_append, List.length_singleton, List.length_replicate]
      omega
    rw [this, List.drop_left]
  refine ⟨?_, ?_, ?_, ?_⟩
  · rw [hdrop, hlen]
    have : M.length + 1 + k + 8 - M.length - 9 = k := by omega
    rw [this]
    exact hk
  · rw [hdrop]
    rfl
  · rw [hdrop]
    exact beValue_putUint64 _ (by omega)
  · omega

theorem padMessage_layout_witness :
    ([0x61, 0x62, 0x63] : List Byte).length < 2305843009213693952 ∧
    (padMessage [0x61, 0x62, 0x63] =
        [0x61, 0x62, 0x63] ++ [0x80] ++
          List.replicate ((padMessage [0x61, 0x62, 0x63]).length -
            ([0x61, 0x62, 0x63] : List Byte).length - 9) 0x00 ++
          (padMessage [0x61, 0x62, 0x63]).drop ((padMessage [0x61, 0x62, 0x63]).length - 8) ∧
      ((padMessage [0x61, 0x62, 0x63]).drop ((padMessage [0x61, 0x62, 0x63]).length - 8)).length = 8 ∧
      beValue ((padMessage [0x61, 0x62, 0x63]).drop ((padMessage [0x61, 0x62, 0x63]).length - 8)) =
        8 * ([0x61, 0x62, 0x63] : List Byte).length ∧
      ([0x61, 0x62, 0x63] : List Byte).length + 9 ≤ (padMessage [0x61, 0x62, 0x63]).length) :=
  ⟨by decide, padMessage_layout [0x61, 0x62, 0x63] (by decide)⟩

/-- C9. For every message `M` (a `[]byte`, so of at most `maxAlloc` bytes) whose
length is congruent to 56 modulo 64, `padMessage M` is `M`, the marker `0x80`,
63 zero bytes and the 8-byte length, so `len(padMessage M) = len(M) + 72`: a
full extra block, and padding adds bytes. -/
theorem padMessage_boundary (M : List Byte) (hM : M.length ≤ maxAlloc)
    (h56 : M.length % 64 = 56) :
    padMessage M = M ++ [0x80] ++ List.replicate 63 0x00 ++ putUint64 (8 * M.length) ∧
      (padMessage M).length = M.length + 72 ∧ M.length < (padMessage M).length := by
  have hlt : M.length < 1152921504606846968 := by
    unfold maxAlloc at hM
    omega
  have hp := padMessage_eq_of_small M hlt
  have h63 : (119 - M.length % 64) % 64 = 63 := by omega
  rw [h63] at hp
  have hlen : (padMessage M).length = M.length + 72 := by
    rw [hp]
    simp only [List.length_append, List.length_singleton, List.length_replicate, putUint64_length]
  exact ⟨hp, hlen, by omega⟩

theorem padMessage_boundary_witness :
    (List.replicate 56 (0x61 : Byte)).length ≤ maxAlloc ∧
    (List.replicate 56 (0x61 : Byte)).length % 64 = 56 ∧
    (padMessage (List.replicate 56 (0x61 : Byte)) =
        List.replicate 56 (0x61 : Byte) ++ [0x80] ++ List.replicate 63 0x00 ++
          putUint64 (8 * (List.replicate 56 (0x61 : Byte)).length) ∧
      (padMessage (List.replicate 56 (0x61 : Byte))).length =
        (List.replicate 56 (0x61 : Byte)).length + 72 ∧
      (List.replicate 56 (0x61 : Byte)).length < (padMessage (List.replicate 56 (0x61 : Byte))).length) :=
  ⟨by decide, by decide, padMessage_boundary (List.replicate 56 (0x61 : Byte)) (by decide) (by decide)⟩

theorem padMessage_nil :
    padMessage ([] : List Byte) = [0x80] ++ List.replicate 55 0x00 ++ putUint64 0 := by
  rw [padMessage_eq_of_small [] (by decide)]
  rfl

/-- C10. The padding of the empty message is exactly one 64-byte block, and `sha0`
of the empty message, from any values of `h0 .. h4`, runs the body of the block
loop exactly once, at offset 0. -/
theorem padMessage_empty_one_block :
    (padMessage ([] : List Byte)).length = 64 ∧
      ∀ st : State, ∃ st1, processBlock (padMessage []) 0 st = some st1 ∧
        sha0 st [] = some (digestOf st1, st1) := by
  refine ⟨by rw [padMessage_nil]; rfl, ?_⟩
  intro st
  have hW : ∃ W, loadWords (padMessage []) 0 (List.replicate 80 0) = some W := by
    rw [padMessage_nil]
    exact Option.isSome_iff_exists.mp (by decide)
  obtain ⟨W, hW⟩ := hW
  have hp : ∃ st1, processBlock (padMessage []) 0 st = some st1 := by
    simp only [processBlock, hW, Option.bind_eq_bind, Option.some_bind, Option.pure_def]
    exact ⟨_, rfl⟩
  obtain ⟨st1, hp⟩ := hp
  refine ⟨st1, hp, ?_⟩
  have hlen : (padMessage ([] : List Byte)).length = 64 := by rw [padMessage_nil]; rfl
  have h1 : blockLoop (padMessage []) 0 st = some st1 := by
    rw [blockLoop_step _ 0 st st1 (by rw [hlen]; decide) hp,
      blockLoop_done _ _ _ (by rw [hlen]; decide)]
  simp only [sha0, h1]

/-! ## `sha0` against the specification -/

theorem be32_or_eq_add (a b c d : Nat) (hb : b < 256) (hc : c < 256) (hd : d < 256) :
    d ||| (c <<< 8) ||| (b <<< 16) ||| (a <<< 24) =
      a * 16777216 + b * 65536 + c * 256 + d := by
  have h1 : d ||| (c <<< 8) = 2 ^ 8 * c + d := by
    rw [Nat.lor_comm, Nat.shiftLeft_eq, Nat.mul_comm c, ← Nat.mul_add_lt_is_or (by omega)]
  have h2 : (2 ^ 8 * c + d) ||| (b <<< 16) = 2 ^ 16 * b + (2 ^ 8 * c + d) := by
    rw [Nat.lor_comm, Nat.shiftLeft_eq, Nat.mul_comm b, ← Nat.mul_add_lt_is_or (by omega)]
  have h3 : (2 ^ 16 * b + (2 ^ 8 * c + d)) ||| (a <<< 24) =
      2 ^ 24 * a + (2 ^ 16 * b + (2 ^ 8 * c + d)) := by
    rw [Nat.lor_comm, Nat.shiftLeft_eq, Nat.mul_comm a, ← Nat.mul_add_lt_is_or (by omega)]
  rw [h1, h2, h3]
  omega

theorem drop_take_four (m : List Byte) (lo : Nat) (h : lo + 4 ≤ m.length) :
    (m.drop lo).take 4 = [m.getD lo 0, m.getD (lo + 1) 0, m.getD (lo + 2) 0, m.getD (lo + 3) 0] := by
  rw [List.drop_eq_getElem_cons (by omega : lo < m.length),
    List.drop_eq_getElem_cons (by omega : lo + 1 < m.length),
    List.drop_eq_getElem_cons (by omega : lo + 1 + 1 < m.length),
    List.drop_eq_getElem_cons (by omega : lo + 1 + 1 + 1 < m.length)]
  simp only [List.take_succ_cons, List.take_zero]
  rw [List.getD_eq_getElem m 0 (by omega : lo < m.length),
    List.getD_eq_getElem m 0 (by omega : lo + 1 < m.length),
    List.getD_eq_getElem m 0 (by omega : lo + 2 < m.length),
    List.getD_eq_getElem m 0 (by omega : lo + 3 < m.length)]

theorem getD_block (m : List Byte) (i r : Nat) (hr : r < 64) :
    ((m.drop i).take 64).getD r 0 = m.getD (i + r) 0 := by
  simp only [List.getD_eq_getElem?_getD, List.getElem?_take, List.getElem?_drop, if_pos hr]

theorem read_word (m : List Byte) (i j : Nat) (hj : j < 16) (hlen : i + 64 ≤ m.length) :
    (slice m (i + j * 4) (i + j * 4 + 4)).bind uint32BE =
      some (specWord ((m.drop i).take 64) j) := by
  have hs : slice m (i + j * 4) (i + j * 4 + 4) = some ((m.drop (i + j * 4)).take 4) := by
    unfold slice
    rw [if_pos ⟨by omega, by omega⟩]
    congr 2
    omega
  rw [hs, drop_take_four m _ (by omega)]
  simp only [Option.some_bind, uint32BE, specWord]
  rw [be32_or_eq_add _ _ _ _ (Fin.is_lt _) (Fin.is_lt _) (Fin.is_lt _),
    getD_block m i _ (by omega), getD_block m i _ (by omega), getD_block m i _ (by omega),
    getD_block m i _ (by omega)]
  have e0 : i + j * 4 = i + 4 * j := by omega
  rw [e0]
  simp only [Nat.add_assoc]

theorem take_succ_set (W : List Nat) (n x : Nat) (h : n < W.length) :
    (W.set n x).take (n + 1) = W.take n ++ [x] := by
  rw [List.take_succ, List.set_take, List.set_eq_of_length_le (by simp),
    List.getElem?_set]
  simp [h]

theorem getD_take_of_lt (W : List Nat) (n j : Nat) (h : j < n) :
    (W.take n).getD j 0 = W.getD j 0 := by
  simp only [List.getD_eq_getElem?_getD, List.getElem?_take, if_pos h]

theorem loadWord_eq (m : List Byte) (i j : Nat) (W : List Nat) (hj : j < 16)
    (hlen : i + 64 ≤ m.length) :
    loadWord m i W j = some (W.set j (specWord ((m.drop i).take 64) j)) := by
  have h := read_word m i j hj hlen
  cases hs : slice m (i + j * 4) (i + j * 4 + 4) with
  | none => rw [hs] at h; simp at h
  | some s =>
    rw [hs, Option.some_bind] at h
    simp only [loadWord, hs, h, Option.bind_eq_bind, Option.some_bind, Option.pure_def]

theorem loadWords_spec (m : List Byte) (i : Nat) (W0 : List Nat) (hW0 : W0.length = 80)
    (hlen : i + 64 ≤ m.length) :
    ∃ W, loadWords m i W0 = some W ∧ W.length = 80 ∧
      W.take 16 = specSchedule ((m.drop i).take 64) 16 := by
  have key : ∀ n, n ≤ 16 → ∃ W, (List.range n).foldlM (loadWord m i) W0 = some W ∧
      W.length = 80 ∧ W.take n = specSchedule ((m.drop i).take 64) n := by
    intro n
    induction n with
    | zero =>
      intro _
      exact ⟨W0, rfl, hW0, by simp [specSchedule]⟩
    | succ n ih =>
      intro hn
      obtain ⟨W, hW, hl, ht⟩ := ih (by omega)
      refine ⟨W.set n (specWord ((m.drop i).take 64) n), ?_, ?_, ?_⟩
      · rw [List.range_succ, List.foldlM_append, hW]
        simp only [Option.bind_eq_bind, Option.some_bind, List.foldlM_cons, List.foldlM_nil,
          Option.pure_def]
        rw [loadWord_eq m i n W (by omega) hlen]
        rfl
      · rw [List.length_set, hl]
      · rw [take_succ_set W n _ (by omega), ht]
        simp only [specSchedule, if_pos (by omega : n < 16)]
  exact key 16 (Nat.le_refl _)

theorem extendWords_spec (block : List Byte) (W0 : List Nat) (hW0 : W0.length = 80)
    (ht0 : W0.take 16 = specSchedule block 16) :
    extendWords W0 = specSchedule block 80 := by
  have key : ∀ n, n ≤ 64 → ((List.range' 16 n).foldl extendWord W0).length = 80 ∧
      ((List.range' 16 n).foldl extendWord W0).take (16 + n) = specSchedule block (16 + n) := by
    intro n
    induction n with
    | zero =>
      intro _
      exact ⟨hW0, ht0⟩
    | succ n ih =>
      intro hn
      obtain ⟨hl, ht⟩ := ih (by omega)
      rw [List.range'_concat, List.foldl_append]
      simp only [List.foldl_cons, List.foldl_nil, Nat.one_mul]
      generalize (List.range' 16 n).foldl extendWord W0 = W at hl ht
      refine ⟨by rw [extendWord, List.length_set, hl], ?_⟩
      rw [extendWord, ← Nat.add_assoc, take_succ_set W (16 + n) _ (by omega)]
      have hs : specSchedule block (16 + n + 1) =
          specSchedule block (16 + n) ++
            [(specSchedule block (16 + n)).getD (16 + n - 3) 0 ^^^
              (specSchedule block (16 + n)).getD (16 + n - 8) 0 ^^^
              (specSchedule block (16 + n)).getD (16 + n - 14) 0 ^^^
              (specSchedule block (16 + n)).getD (16 + n - 16) 0] := by
        simp only [specSchedule, if_neg (by omega : ¬ 16 + n < 16)]
      rw [hs, ← ht, getD_take_of_lt W _ _ (by omega), getD_take_of_lt W _ _ (by omega),
        getD_take_of_lt W _ _ (by omega), getD_take_of_lt W _ _ (by omega)]
  obtain ⟨hl, ht⟩ := key 64 (Nat.le_refl _)
  have h80 : List.take (16 + 64) ((List.range' 16 64).foldl extendWord W0) =
      (List.range' 16 64).foldl extendWord W0 := List.take_of_length_le (by omega)
  rw [extendWords, ← h80, ht]

theorem round_eq_specRound (W : List Nat) (v : Vars) (j : Nat) :
    round W v j = specRound W j v := by
  unfold round specRound specF specK K add32
  by_cases h20 : j < 20
  · simp only [if_pos h20, List.getD_cons_zero]
    refine congrArg (fun t => Vars.mk t v.a (leftRotate v.b 30) v.c v.d) ?_
    omega
  · by_cases h40 : j < 40
    · simp only [if_neg h20, if_pos h40, List.getD_cons_succ, List.getD_cons_zero]
      refine congrArg (fun t => Vars.mk t v.a (leftRotate v.b 30) v.c v.d) ?_
      omega
    · by_cases h60 : j < 60
      · simp only [if_neg h20, if_neg h40, if_pos h60, List.getD_cons_succ, List.getD_cons_zero]
        refine congrArg (fun t => Vars.mk t v.a (leftRotate v.b 30) v.c v.d) ?_
        omega
      · simp only [if_neg h20, if_neg h40, if_neg h60, List.getD_cons_succ, List.getD_cons_zero]
        refine congrArg (fun t => Vars.mk t v.a (leftRotate v.b 30) v.c v.d) ?_
        omega

theorem mainLoop_eq_specRounds (W : List Nat) (v : Vars) :
    mainLoop W v = specRounds W 80 v := by
  have key : ∀ n, (List.range n).foldl (round W) v = specRounds W n v := by
    intro n
    induction n with
    | zero => rfl
    | succ n ih =>
      rw [List.range_succ, List.foldl_append, ih]
      simp only [List.foldl_cons, List.foldl_nil, specRounds, round_eq_specRound]
  exact key 80

theorem processBlock_eq_specCompress (m : List Byte) (i : Nat) (st : State)
    (hlen : i + 64 ≤ m.length) :
    processBlock m i st = some (specCompress st ((m.drop i).take 64)) := by
  obtain ⟨W, hW, hl, ht⟩ := loadWords_spec m i (List.replicate 80 0) (by simp) hlen
  simp only [processBlock, hW, Option.bind_eq_bind, Option.some_bind, Option.pure_def,
    extendWords_spec _ W hl ht, mainLoop_eq_specRounds, specCompress, add32]

theorem blockLoop_eq_foldl (m : List Byte) (n : Nat) (hm : m.length = 64 * n) :
    ∀ (d k : Nat) (st : State), k + d = n →
      blockLoop m (64 * k) st =
        some (((List.range' k d).map (fun k => (m.drop (64 * k)).take 64)).foldl specCompress st) := by
  intro d
  induction d with
  | zero =>
    intro k st hk
    rw [blockLoop_done _ _ _ (by omega)]
    rfl
  | succ d ih =>
    intro k st hk
    rw [blockLoop_step m (64 * k) st _ (by omega)
        (processBlock_eq_specCompress m (64 * k) st (by omega)),
      (by omega : 64 * k + 64 = 64 * (k + 1)), ih (k + 1) _ (by omega), List.range'_succ,
      List.map_cons, List.foldl_cons]

theorem putUint32_eq_specWordBytes (v : Nat) : putUint32 v = specWordBytes v := by
  simp only [putUint32, specWordBytes, Nat.shiftRight_eq_div_pow]

theorem digestOf_eq_specDigest (st : State) : digestOf st = specDigest st := by
  simp only [digestOf, specDigest, putUint32_eq_specWordBytes]

theorem sha0_eq_fold (st : State) (M : List Byte) :
    sha0 st M =
      some (specDigest ((specBlocks (padMessage M)).foldl specCompress st),
        (specBlocks (padMessage M)).foldl specCompress st) := by
  have h64 := (padMessage_length_facts M).1
  have hm : (padMessage M).length = 64 * ((padMessage M).length / 64) := by omega
  have hb := blockLoop_eq_foldl (padMessage M) _ hm ((padMessage M).length / 64) 0 st
    (Nat.zero_add _)
  rw [Nat.mul_zero, ← List.range_eq_range'] at hb
  simp only [sha0, hb, specBlocks, digestOf_eq_specDigest]

/-- C6. For every message `M` (so in particular for every message shorter than
`2^61` bytes), `sha0 M`, called with `h0 .. h4` at their initial constants,
returns the 20-byte big-endian concatenation of the five words obtained by
folding the compression function of the specification over the consecutive
64-byte blocks of `padMessage M`, in order, from the five initial constants. -/
theorem sha0_eq_specSha0 (M : List Byte) :
    (sha0 initState M).map Prod.fst = some (specSha0 M) ∧ (specSha0 M).length = 20 := by
  refine ⟨?_, rfl⟩
  rw [sha0_eq_fold]
  rfl

/-! ## The length field and the message inside the padded message -/

theorem padMessage_suffix (M : List Byte) :
    (padMessage M).drop ((padMessage M).length - 8) =
      putUint64 ((8 * M.length) % 18446744073709551616) := by
  obtain ⟨k, hk, -, -⟩ := padMessage_shape M
  rw [toUint64_wrapInt_len] at hk
  have hlen : (padMessage M).length - 8 =
      (M ++ [0x80] ++ List.replicate k (0x00 : Byte)).length := by
    rw [hk]
    simp only [List.length_append, List.length_singleton, List.length_replicate, putUint64_length]
    omega
  rw [hlen, hk, List.drop_left]

theorem padMessage_take (M : List Byte) : (padMessage M).take M.length = M := by
  obtain ⟨k, hk, -, -⟩ := padMessage_shape M
  rw [hk, List.append_assoc, List.append_assoc, List.take_left]

theorem sha0_isSome (st : State) (M : List Byte) : (sha0 st M).isSome = true := by
  rw [sha0_eq_fold]
  rfl

/-! ## The block loop stays inside the padded message -/

theorem padMessage_length_le (M : List Byte) (h : M.length < 1152921504606846976) :
    (padMessage M).length ≤ 2305843009213694016 := by
  obtain ⟨k, hk, -, hlt⟩ := padMessage_shape M
  have hk2 : k ≤ 2305843009213694008 - (M.length + 1) := by
    rcases Nat.lt_or_ge (2305843009213694008 - (M.length + 1)) k with hgt | hle
    · have h1 := hlt _ hgt
      rw [padGuard_eq_true_iff] at h1
      omega
    · exact hle
  rw [hk]
  simp only [List.length_append, List.length_singleton, List.length_replicate, putUint64_length]
  omega

theorem slice_four (m : List Byte) (lo : Nat) (h : lo + 4 ≤ m.length) :
    ∃ s, slice m lo (lo + 4) = some s ∧ s.length = 4 := by
  refine ⟨(m.drop lo).take (lo + 4 - lo), ?_, ?_⟩
  · unfold slice
    rw [if_pos ⟨by omega, h⟩]
  · rw [List.length_take, List.length_drop]
    omega

/-- C12. For every message `M` shorter than `2^60` bytes the padded message has a
length that is a multiple of 64 (and far below the range of `int`), so at every
offset `i = 0, 64, 128, ...` below that length and for every `j` in `0 .. 15` the
slice `message[i+4j : i+4j+4]` lies inside the padded message and is read
successfully; `sha0` returns a digest, and no bytes are left over after the last
block. -/
theorem sha0_reads_in_bounds (st : State) (M : List Byte)
    (h : M.length < 1152921504606846976) :
    (padMessage M).length % 64 = 0 ∧
    (padMessage M).length ≤ 2305843009213694016 ∧
    (∀ i j, i % 64 = 0 → i < (padMessage M).length → j < 16 →
      i + j * 4 + 4 ≤ (padMessage M).length ∧
      ∃ s, slice (padMessage M) (i + j * 4) (i + j * 4 + 4) = some s ∧ s.length = 4) ∧
    (sha0 st M).isSome = true := by
  have h64 := (padMessage_length_facts M).1
  refine ⟨h64, padMessage_length_le M h, ?_, sha0_isSome st M⟩
  intro i j hi hlt hj
  have hb : i + j * 4 + 4 ≤ (padMessage M).length := by omega
  exact ⟨hb, slice_four _ _ hb⟩

theorem sha0_reads_in_bounds_witness :
    ([0x61, 0x62, 0x63] : List Byte).length < 1152921504606846976 ∧
    ((padMessage [0x61, 0x62, 0x63]).length % 64 = 0 ∧
    (padMessage [0x61, 0x62, 0x63]).length ≤ 2305843009213694016 ∧
    (∀ i j, i % 64 = 0 → i < (padMessage [0x61, 0x62, 0x63]).length → j < 16 →
      i + j * 4 + 4 ≤ (padMessage [0x61, 0x62, 0x63]).length ∧
      ∃ s, slice (padMessage [0x61, 0x62, 0x63]) (i + j * 4) (i + j * 4 + 4) = some s ∧
        s.length = 4) ∧
    (sha0 initState [0x61, 0x62, 0x63]).isSome = true) :=
  ⟨by decide, sha0_reads_in_bounds initState [0x61, 0x62, 0x63] (by decide)⟩

/-! ## Padding can be undone -/

/-- C15. For all messages `M1` and `M2` shorter than `2^61` bytes,
`padMessage M1 = padMessage M2` implies `M1 = M2`. -/
theorem padMessage_injective (M1 M2 : List Byte) (h1 : M1.length < 2305843009213693952)
    (h2 : M2.length < 2305843009213693952) (h : padMessage M1 = padMessage M2) : M1 = M2 := by
  have e1 : beValue ((padMessage M1).drop ((padMessage M1).length - 8)) = 8 * M1.length := by
    rw [padMessage_suffix, beValue_putUint64 _ (Nat.mod_lt _ (by decide))]
    omega
  have e2 : beValue ((padMessage M2).drop ((padMessage M2).length - 8)) = 8 * M2.length := by
    rw [padMessage_suffix, beValue_putUint64 _ (Nat.mod_lt _ (by decide))]
    omega
  rw [h, e2] at e1
  have hlen : M1.length = M2.length := by omega
  rw [← padMessage_take M1, ← padMessage_take M2, h, hlen]

theorem padMessage_injective_witness :
    ([0x61, 0x62] : List Byte).length < 2305843009213693952 ∧
    ([0x61, 0x62] : List Byte).length < 2305843009213693952 ∧
    padMessage [0x61, 0x62] = padMessage [0x61, 0x62] ∧
    ([0x61, 0x62] : List Byte) = [0x61, 0x62] :=
  ⟨by decide, by decide, rfl,
    padMessage_injective [0x61, 0x62] [0x61, 0x62] (by decide) (by decide) rfl⟩

/-! ## Two calls in a row -/

/-- C17. When `sha0 M1` and then `sha0 M2` are called, starting from the declared
initial values of `h0 .. h4`, the second call returns the big-endian
serialisation of the state reached by running the compression over the blocks of
`padMessage M1` followed by the blocks of `padMessage M2`, from the initial
constants: it continues from the state the first call left behind. -/
theorem sha0_sequential_calls (M1 M2 : List Byte) :
    ∃ d1 s1, sha0 initState M1 = some (d1, s1) ∧
      s1 = (specBlocks (padMessage M1)).foldl specCompress
        ⟨0x67452301, 0xEFCDAB89, 0x98BADCFE, 0x10325476, 0xC3D2E1F0⟩ ∧
      (sha0 s1 M2).map Prod.fst =
        some (specDigest ((specBlocks (padMessage M1) ++ specBlocks (padMessage M2)).foldl
          specCompress ⟨0x67452301, 0xEFCDAB89, 0x98BADCFE, 0x10325476, 0xC3D2E1F0⟩)) := by
  refine ⟨_, _, sha0_eq_fold initState M1, rfl, ?_⟩
  rw [sha0_eq_fold, List.foldl_append]
  rfl

/-! ## How many zero bytes the loop appends -/

theorem padLoop_eq_of_small (M : List Byte) (h : M.length < 1152921504606846968) :
    padLoop (M ++ [0x80]) =
      (M ++ [0x80]) ++ List.replicate ((119 - M.length % 64) % 64) 0x00 := by
  apply padLoop_zeros
  · intro i hi
    rw [padGuard_eq_true_iff]
    simp only [List.length_append, List.length_singleton]
    omega
  · rw [padGuard_eq_false_iff]
    simp only [List.length_append, List.length_singleton]
    omega

/-- C18. For every message `M` (a `[]byte`, so of at most `maxAlloc` bytes, which
is less than `2^60`), the loop of `padMessage` ends after appending exactly
`(55 - len(M)) mod 64` zero bytes, at most 63, so
`len(padMessage M) = 64 * ((len(M) + 8) / 64 + 1)`, the least multiple of 64 that
is at least `len(M) + 9`. -/
theorem padMessage_minimal (M : List Byte) (hM : M.length ≤ maxAlloc) :
    ∃ k : Nat, padLoop (M ++ [0x80]) = (M ++ [0x80]) ++ List.replicate k 0x00 ∧
      padMessage M = M ++ [0x80] ++ List.replicate k 0x00 ++ putUint64 (8 * M.length) ∧
      (k : Int) = (55 - (M.length : Int)) % 64 ∧ k ≤ 63 ∧
      (padMessage M).length = 64 * ((M.length + 8) / 64 + 1) ∧
      (padMessage M).length % 64 = 0 ∧ M.length + 9 ≤ (padMessage M).length ∧
      ∀ n, n % 64 = 0 → M.length + 9 ≤ n → (padMessage M).length ≤ n := by
  have hlt : M.length < 1152921504606846968 := by
    unfold maxAlloc at hM
    omega
  have hp := padMessage_eq_of_small M hlt
  have hlen : (padMessage M).length = M.length + 1 + (119 - M.length % 64) % 64 + 8 := by
    rw [hp]
    simp only [List.length_append, List.length_singleton, List.length_replicate, putUint64_length]
  refine ⟨(119 - M.length % 64) % 64, padLoop_eq_of_small M hlt, hp, ?_, ?_, ?_, ?_, ?_, ?_⟩
  · omega
  · omega
  · omega
  · omega
  · omega
  · intro n hn hle
    omega

theorem padMessage_minimal_witness :
    ([0x61, 0x62, 0x63] : List Byte).length ≤ maxAlloc ∧
    ∃ k : Nat, padLoop ([0x61, 0x62, 0x63] ++ [0x80]) =
        ([0x61, 0x62, 0x63] ++ [0x80]) ++ List.replicate k 0x00 ∧
      padMessage [0x61, 0x62, 0x63] =
        [0x61, 0x62, 0x63] ++ [0x80] ++ List.replicate k 0x00 ++
          putUint64 (8 * ([0x61, 0x62, 0x63] : List Byte).length) ∧
      (k : Int) = (55 - (([0x61, 0x62, 0x63] : List Byte).length : Int)) % 64 ∧ k ≤ 63 ∧
      (padMessage [0x61, 0x62, 0x63]).length =
        64 * ((([0x61, 0x62, 0x63] : List Byte).length + 8) / 64 + 1) ∧
      (padMessage [0x61, 0x62, 0x63]).length % 64 = 0 ∧
      ([0x61, 0x62, 0x63] : List Byte).length + 9 ≤ (padMessage [0x61, 0x62, 0x63]).length ∧
      ∀ n, n % 64 = 0 → ([0x61, 0x62, 0x63] : List Byte).length + 9 ≤ n →
        (padMessage [0x61, 0x62, 0x63]).length ≤ n :=
  ⟨by decide, padMessage_minimal [0x61, 0x62, 0x63] (by decide)⟩

/-! ## `leftRotate` -/

theorem testBit_false_of_lt_word (v k : Nat) (hv : v < 4294967296) (hk : 32 ≤ k) :
    v.testBit k = false := by
  apply Nat.testBit_lt_two_pow
  calc v < 2 ^ 32 := hv
    _ ≤ 2 ^ k := Nat.pow_le_pow_right (by decide) hk

theorem leftRotate_in_range (v n : Nat) (hn : n ≤ 32) :
    leftRotate v n = ((v <<< n) % 2 ^ 32) ||| (v >>> (32 - n)) := by
  unfold leftRotate
  have hs : (32 + 18446744073709551616 - n) % 18446744073709551616 = 32 - n := by omega
  rw [hs]
  rfl

theorem leftRotate_testBit (v n j : Nat) (hn : n ≤ 32) :
    (leftRotate v n).testBit j =
      ((decide (j < 32) && (decide (j ≥ n) && v.testBit (j - n))) || v.testBit (32 - n + j)) := by
  rw [leftRotate_in_range v n hn, Nat.testBit_lor, Nat.testBit_mod_two_pow,
    Nat.testBit_shiftLeft, Nat.testBit_shiftRight]

theorem leftRotate_eq_add (v n : Nat) (hv : v < 4294967296) (hn : n ≤ 32) :
    leftRotate v n = (v * 2 ^ n) % 4294967296 + v / 2 ^ (32 - n) := by
  rw [leftRotate_in_range v n hn, Nat.shiftLeft_eq, Nat.shiftRight_eq_div_pow]
  have hpow : (2 : Nat) ^ 32 = 2 ^ n * 2 ^ (32 - n) := by
    rw [← Nat.pow_add]
    congr 1
    omega
  have hlt : v / 2 ^ (32 - n) < 2 ^ n := by
    rw [Nat.div_lt_iff_lt_mul (Nat.pos_pow_of_pos _ (by decide))]
    rw [← hpow]
    exact hv
  have hmod : (v * 2 ^ n) % 2 ^ 32 = 2 ^ n * (v % 2 ^ (32 - n)) := by
    rw [hpow, Nat.mul_comm v, Nat.mul_mod_mul_left]
  rw [show (4294967296 : Nat) = 2 ^ 32 from rfl, hmod, ← Nat.mul_add_lt_is_or hlt]

/-- C14. For every 32-bit word `v` and every `n` with `0 < n < 32`, `leftRotate v n`
is again a 32-bit word, its bit `(i + n) mod 32` is bit `i` of `v` for every `i`
in `0 .. 31`, and it equals `(v * 2^n mod 2^32) + floor(v / 2^(32-n))`. -/
theorem leftRotate_is_rotation (v n : Nat) (hv : v < 4294967296) (hn0 : 0 < n) (hn : n < 32) :
    leftRotate v n < 4294967296 ∧
    (∀ i, i < 32 → (leftRotate v n).testBit ((i + n) % 32) = v.testBit i) ∧
    leftRotate v n = (v * 2 ^ n) % 4294967296 + v / 2 ^ (32 - n) := by
  refine ⟨?_, ?_, leftRotate_eq_add v n hv (by omega)⟩
  · apply Nat.lt_pow_two_of_testBit (n := 32)
    intro j hj
    rw [leftRotate_testBit v n j (by omega)]
    have h1 : decide (j < 32) = false := by simp; omega
    rw [h1, testBit_false_of_lt_word v (32 - n + j) hv (by omega)]
    rfl
  · intro i hi
    rw [leftRotate_testBit v n _ (by omega)]
    by_cases hsum : i + n < 32
    · have hj : (i + n) % 32 = i + n := Nat.mod_eq_of_lt hsum
      rw [hj, testBit_false_of_lt_word v (32 - n + (i + n)) hv (by omega)]
      have e : i + n - n = i := by omega
      simp [e, hsum]
    · have hj : (i + n) % 32 = i + n - 32 := by omega
      rw [hj]
      have e : 32 - n + (i + n - 32) = i := by omega
      have h2 : decide (i + n - 32 ≥ n) = false := by simp; omega
      rw [e, h2]
      simp

theorem leftRotate_is_rotation_witness :
    (0x80000001 : Nat) < 4294967296 ∧ 0 < 5 ∧ 5 < 32 ∧
    (leftRotate 0x80000001 5 < 4294967296 ∧
    (∀ i, i < 32 → (leftRotate 0x80000001 5).testBit ((i + 5) % 32) = (0x80000001 : Nat).testBit i) ∧
    leftRotate 0x80000001 5 = (0x80000001 * 2 ^ 5) % 4294967296 + 0x80000001 / 2 ^ (32 - 5)) :=
  ⟨by decide, by decide, by decide,
    leftRotate_is_rotation 0x80000001 5 (by decide) (by decide) (by decide)⟩

/-- C20. Outside the documented range `leftRotate` is not a rotation modulo 32:
for every 32-bit word `v` and every shift count `n > 32` (a `uint`, so below
`2^64`), `leftRotate v n = 0`, whereas `leftRotate v 0 = v` and
`leftRotate v 32 = v`. -/
theorem leftRotate_out_of_range (v : Nat) (hv : v < 4294967296) :
    (∀ n, 32 < n → n < 18446744073709551616 → leftRotate v n = 0) ∧
    leftRotate v 0 = v ∧ leftRotate v 32 = v := by
  refine ⟨?_, ?_, ?_⟩
  · intro n hn hlt
    unfold leftRotate
    have hl : (v <<< n) % 4294967296 = 0 := by
      rw [Nat.shiftLeft_eq]
      have hp : (2 : Nat) ^ n = 2 ^ (n - 32) * 4294967296 := by
        rw [show (4294967296 : Nat) = 2 ^ 32 from rfl, ← Nat.pow_add]
        congr 1
        omega
      rw [hp, ← Nat.mul_assoc, Nat.mul_mod_left]
    have hr : v >>> ((32 + 18446744073709551616 - n) % 18446744073709551616) = 0 := by
      rw [Nat.shiftRight_eq_div_pow]
      apply Nat.div_eq_of_lt
      calc v < 2 ^ 32 := hv
        _ ≤ 2 ^ ((32 + 18446744073709551616 - n) % 18446744073709551616) :=
          Nat.pow_le_pow_right (by decide) (by omega)
    rw [hl, hr]
    rfl
  · rw [leftRotate_eq_add v 0 hv (by decide)]
    have : v / 2 ^ (32 - 0) = 0 := Nat.div_eq_of_lt hv
    rw [this]
    omega
  · rw [leftRotate_eq_add v 32 hv (by decide)]
    have h1 : v * 2 ^ 32 % 4294967296 = 0 := Nat.mul_mod_left _ _
    rw [h1]
    simp

theorem leftRotate_out_of_range_witness :
    (0x80000001 : Nat) < 4294967296 ∧
    ((∀ n, 32 < n → n < 18446744073709551616 → leftRotate 0x80000001 n = 0) ∧
    leftRotate 0x80000001 0 = 0x80000001 ∧ leftRotate 0x80000001 32 = 0x80000001) :=
  ⟨by decide, leftRotate_out_of_range 0x80000001 (by decide)⟩

/-! ## The message schedule -/

theorem getD_set_ne (W : List Nat) (i j x : Nat) (h : i ≠ j) :
    (W.set i x).getD j 0 = W.getD j 0 := by
  simp only [List.getD_eq_getElem?_getD, List.getElem?_set, if_neg h]

theorem getD_set_self (W : List Nat) (i x : Nat) (h : i < W.length) :
    (W.set i x).getD i 0 = x := by
  simp only [List.getD_eq_getElem?_getD, List.getElem?_set, if_pos h, if_true, Option.getD_some]

theorem extendWords_getD (W0 : List Nat) (hW0 : W0.length = 80) :
    (extendWords W0).length = 80 ∧
    (∀ j, j < 16 → (extendWords W0).getD j 0 = W0.getD j 0) ∧
    (∀ j, 16 ≤ j → j < 80 →
      (extendWords W0).getD j 0 =
        (extendWords W0).getD (j - 3) 0 ^^^ (extendWords W0).getD (j - 8) 0 ^^^
          (extendWords W0).getD (j - 14) 0 ^^^ (extendWords W0).getD (j - 16) 0) := by
  have key : ∀ n, n ≤ 64 →
      ((List.range' 16 n).foldl extendWord W0).length = 80 ∧
      (∀ j, j < 16 → ((List.range' 16 n).foldl extendWord W0).getD j 0 = W0.getD j 0) ∧
      (∀ j, 16 ≤ j → j < 16 + n →
        ((List.range' 16 n).foldl extendWord W0).getD j 0 =
          ((List.range' 16 n).foldl extendWord W0).getD (j - 3) 0 ^^^
            ((List.range' 16 n).foldl extendWord W0).getD (j - 8) 0 ^^^
            ((List.range' 16 n).foldl extendWord W0).getD (j - 14) 0 ^^^
            ((List.range' 16 n).foldl extendWord W0).getD (j - 16) 0) := by
    intro n
    induction n with
    | zero =>
      intro _
      exact ⟨hW0, fun _ _ => rfl, fun j h1 h2 => by omega⟩
    | succ n ih =>
      intro hn
      obtain ⟨hl, hlo, hrec⟩ := ih (by omega)
      rw [List.range'_concat, List.foldl_append]
      simp only [List.foldl_cons, List.foldl_nil, Nat.one_mul]
      generalize (List.range' 16 n).foldl extendWord W0 = W at hl hlo hrec
      unfold extendWord
      refine ⟨by rw [List.length_set, hl], ?_, ?_⟩
      · intro j hj
        rw [getD_set_ne W _ j _ (by omega), hlo j hj]
      · intro j h1 h2
        rw [getD_set_ne W _ (j - 3) _ (by omega), getD_set_ne W _ (j - 8) _ (by omega),
          getD_set_ne W _ (j - 14) _ (by omega), getD_set_ne W _ (j - 16) _ (by omega)]
        rcases Nat.lt_or_ge j (16 + n) with hlt | hge
        · rw [getD_set_ne W _ j _ (by omega), hrec j h1 hlt]
        · have hj : j = 16 + n := by omega
          subst hj
          rw [getD_set_self W _ _ (by omega)]
  exact key 64 (Nat.le_refl _)

theorem specSchedule_length (block : List Byte) (n : Nat) :
    (specSchedule block n).length = n := by
  induction n with
  | zero => rfl
  | succ n ih => simp only [specSchedule, List.length_append, List.length_singleton, ih]

theorem specSchedule_getD_word (block : List Byte) (n j : Nat) (hn : n ≤ 16) (hj : j < n) :
    (specSchedule block n).getD j 0 = specWord block j := by
  induction n with
  | zero => omega
  | succ n ih =>
    simp only [specSchedule, if_pos (by omega : n < 16)]
    rcases Nat.lt_or_ge j n with hlt | hge
    · rw [List.getD_append _ _ _ _ (by rw [specSchedule_length]; exact hlt)]
      exact ih (by omega) hlt
    · have hjn : j = n := by omega
      subst hjn
      rw [List.getD_append_right _ _ _ _ (by rw [specSchedule_length]), specSchedule_length,
        Nat.sub_self]
      rfl

/-- C13. For the 64-byte block at offset `i` of a message, the schedule that the
block-loop body builds has `W[j]` equal to the big-endian 32-bit word at bytes
`4j .. 4j+3` of the block for `j` in `0 .. 15`, and
`W[j] = W[j-3] XOR W[j-8] XOR W[j-14] XOR W[j-16]`, without rotation, for every
`j` in `16 .. 79`. -/
theorem schedule_without_rotation (m : List Byte) (i : Nat) (h : i + 64 ≤ m.length) :
    ∃ W0, loadWords m i (List.replicate 80 0) = some W0 ∧
      (extendWords W0).length = 80 ∧
      (∀ j, j < 16 →
        (extendWords W0).getD j 0 =
          (m.getD (i + 4 * j) 0).val * 16777216 + (m.getD (i + 4 * j + 1) 0).val * 65536 +
            (m.getD (i + 4 * j + 2) 0).val * 256 + (m.getD (i + 4 * j + 3) 0).val) ∧
      (∀ j, 16 ≤ j → j < 80 →
        (extendWords W0).getD j 0 =
          (extendWords W0).getD (j - 3) 0 ^^^ (extendWords W0).getD (j - 8) 0 ^^^
            (extendWords W0).getD (j - 14) 0 ^^^ (extendWords W0).getD (j - 16) 0) := by
  obtain ⟨W0, hW0, hl, ht⟩ := loadWords_spec m i (List.replicate 80 0) (by simp) h
  obtain ⟨hl2, hlo, hrec⟩ := extendWords_getD W0 hl
  refine ⟨W0, hW0, hl2, ?_, hrec⟩
  intro j hj
  rw [hlo j hj, ← getD_take_of_lt W0 16 j hj, ht, specSchedule_getD_word _ 16 j (Nat.le_refl _) hj, specWord,
    getD_block m i _ (by omega), getD_block m i _ (by omega), getD_block m i _ (by omega),
    getD_block m i _ (by omega)]
  simp only [Nat.add_assoc]

theorem schedule_without_rotation_witness :
    0 + 64 ≤ (List.replicate 64 (0x61 : Byte)).length ∧
    ∃ W0, loadWords (List.replicate 64 (0x61 : Byte)) 0 (List.replicate 80 0) = some W0 ∧
      (extendWords W0).length = 80 ∧
      (∀ j, j < 16 →
        (extendWords W0).getD j 0 =
          ((List.replicate 64 (0x61 : Byte)).getD (0 + 4 * j) 0).val * 16777216 +
            ((List.replicate 64 (0x61 : Byte)).getD (0 + 4 * j + 1) 0).val * 65536 +
            ((List.replicate 64 (0x61 : Byte)).getD (0 + 4 * j + 2) 0).val * 256 +
            ((List.replicate 64 (0x61 : Byte)).getD (0 + 4 * j + 3) 0).val) ∧
      (∀ j, 16 ≤ j → j < 80 →
        (extendWords W0).getD j 0 =
          (extendWords W0).getD (j - 3) 0 ^^^ (extendWords W0).getD (j - 8) 0 ^^^
            (extendWords W0).getD (j - 14) 0 ^^^ (extendWords W0).getD (j - 16) 0) :=
  ⟨by decide, schedule_without_rotation (List.replicate 64 (0x61 : Byte)) 0 (by decide)⟩


theorem expand_getD (X : List Nat) (hX : X.length = 16) :
    (∀ j, j < 16 → (expand X).getD j 0 = X.getD j 0) ∧
    (∀ j, 16 ≤ j → j < 80 →
      (expand X).getD j 0 =
        (expand X).getD (j - 3) 0 ^^^ (expand X).getD (j - 8) 0 ^^^
          (expand X).getD (j - 14) 0 ^^^ (expand X).getD (j - 16) 0) := by
  obtain ⟨-, hlo, hrec⟩ := extendWords_getD (X ++ List.replicate 64 0)
    (by rw [List.length_append, List.length_replicate, hX])
  refine ⟨?_, hrec⟩
  intro j hj
  rw [expand, hlo j hj, List.getD_append _ _ _ _ (by omega)]

theorem loadWords_eq_append (m : List Byte) (i : Nat) (h : i + 64 ≤ m.length) :
    loadWords m i (List.replicate 80 0) =
      some (specSchedule ((m.drop i).take 64) 16 ++ List.replicate 64 0) := by
  have key : ∀ n, n ≤ 16 → ∃ W, (List.range n).foldlM (loadWord m i) (List.replicate 80 0) = some W ∧
      W.drop 16 = List.replicate 64 0 := by
    intro n
    induction n with
    | zero =>
      intro _
      exact ⟨_, rfl, by simp⟩
    | succ n ih =>
      intro hn
      obtain ⟨W, hW, hd⟩ := ih (by omega)
      refine ⟨W.set n (specWord ((m.drop i).take 64) n), ?_, ?_⟩
      · rw [List.range_succ, List.foldlM_append, hW]
        simp only [Option.bind_eq_bind, Option.some_bind, List.foldlM_cons, List.foldlM_nil,
          Option.pure_def]
        rw [loadWord_eq m i n W (by omega) h]
        rfl
      · rw [List.drop_set_of_lt _ _ (by omega), hd]
  obtain ⟨W, hW, hd⟩ := key 16 (Nat.le_refl _)
  obtain ⟨W1, hW1, -, ht⟩ := loadWords_spec m i (List.replicate 80 0) (by simp) h
  have hWW : W = W1 := by
    have := hW.symm.trans hW1
    exact Option.some.inj this
  subst hWW
  rw [hW1, ← ht, ← hd, List.take_append_drop]

theorem processBlock_schedule_eq_expand (m : List Byte) (i : Nat) (h : i + 64 ≤ m.length) :
    (loadWords m i (List.replicate 80 0)).map extendWords =
      some (expand (specSchedule ((m.drop i).take 64) 16)) := by
  rw [loadWords_eq_append m i h]
  rfl

theorem xor4_rearrange (a1 a2 a3 a4 b1 b2 b3 b4 : Nat) :
    (a1 ^^^ b1) ^^^ (a2 ^^^ b2) ^^^ (a3 ^^^ b3) ^^^ (a4 ^^^ b4) =
      (a1 ^^^ a2 ^^^ a3 ^^^ a4) ^^^ (b1 ^^^ b2 ^^^ b3 ^^^ b4) := by
  apply Nat.eq_of_testBit_eq
  intro k
  simp only [Nat.testBit_xor]
  cases a1.testBit k <;> cases a2.testBit k <;> cases a3.testBit k <;> cases a4.testBit k <;>
    cases b1.testBit k <;> cases b2.testBit k <;> cases b3.testBit k <;> cases b4.testBit k <;> rfl

theorem getD_zipWith_xor (X Y : List Nat) (j : Nat) (hX : j < X.length) (hY : j < Y.length) :
    (List.zipWith (fun x y => x ^^^ y) X Y).getD j 0 = X.getD j 0 ^^^ Y.getD j 0 := by
  simp only [List.getD_eq_getElem?_getD, List.getElem?_zipWith,
    List.getElem?_eq_getElem hX, List.getElem?_eq_getElem hY, Option.getD_some]

/-- C19. With `expand` the map from 16 input words to the 80 schedule words that
`sha0` computes: for all 16-word inputs `X` and `Y` and every `j` in `0 .. 79`,
`expand (X XOR Y)[j] = expand X [j] XOR expand Y [j]`; and bit `i` of every
schedule word depends only on bit `i` of the 16 input words. -/
theorem expand_xor_linear (X Y : List Nat) (hX : X.length = 16) (hY : Y.length = 16) :
    (∀ j, j < 80 →
      (expand (List.zipWith (fun x y => x ^^^ y) X Y)).getD j 0 =
        (expand X).getD j 0 ^^^ (expand Y).getD j 0) ∧
    (∀ i, (∀ t, t < 16 → (X.getD t 0).testBit i = (Y.getD t 0).testBit i) →
      ∀ j, j < 80 → ((expand X).getD j 0).testBit i = ((expand Y).getD j 0).testBit i) := by
  have hZ : (List.zipWith (fun x y => x ^^^ y) X Y).length = 16 := by
    rw [List.length_zipWith, hX, hY]
    rfl
  obtain ⟨hXlo, hXrec⟩ := expand_getD X hX
  obtain ⟨hYlo, hYrec⟩ := expand_getD Y hY
  obtain ⟨hZlo, hZrec⟩ := expand_getD _ hZ
  constructor
  · intro j
    induction j using Nat.strong_induction_on with
    | _ j ih =>
      intro hj
      rcases Nat.lt_or_ge j 16 with hlt | hge
      · rw [hZlo j hlt, hXlo j hlt, hYlo j hlt,
          getD_zipWith_xor X Y j (by omega) (by omega)]
      · rw [hZrec j hge hj, hXrec j hge hj, hYrec j hge hj,
          ih (j - 3) (by omega) (by omega), ih (j - 8) (by omega) (by omega),
          ih (j - 14) (by omega) (by omega), ih (j - 16) (by omega) (by omega)]
        exact xor4_rearrange _ _ _ _ _ _ _ _
  · intro i hbit j
    induction j using Nat.strong_induction_on with
    | _ j ih =>
      intro hj
      rcases Nat.lt_or_ge j 16 with hlt | hge
      · rw [hXlo j hlt, hYlo j hlt]
        exact hbit j hlt
      · rw [hXrec j hge hj, hYrec j hge hj]
        simp only [Nat.testBit_xor]
        rw [ih (j - 3) (by omega) (by omega), ih (j - 8) (by omega) (by omega),
          ih (j - 14) (by omega) (by omega), ih (j - 16) (by omega) (by omega)]

theorem expand_xor_linear_witness :
    (List.replicate 16 (0x0F0F0F0F : Nat)).length = 16 ∧
    (List.replicate 16 (0x00FF00FF : Nat)).length = 16 ∧
    (∀ j, j < 80 →
      (expand (List.zipWith (fun x y => x ^^^ y) (List.replicate 16 (0x0F0F0F0F : Nat))
          (List.replicate 16 (0x00FF00FF : Nat)))).getD j 0 =
        (expand (List.replicate 16 (0x0F0F0F0F : Nat))).getD j 0 ^^^
          (expand (List.replicate 16 (0x00FF00FF : Nat))).getD j 0) ∧
    (∀ i, (∀ t, t < 16 → ((List.replicate 16 (0x0F0F0F0F : Nat)).getD t 0).testBit i =
        ((List.replicate 16 (0x00FF00FF : Nat)).getD t 0).testBit i) →
      ∀ j, j < 80 → ((expand (List.replicate 16 (0x0F0F0F0F : Nat))).getD j 0).testBit i =
        ((expand (List.replicate 16 (0x00FF00FF : Nat))).getD j 0).testBit i) :=
  ⟨by decide, by decide,
    expand_xor_linear (List.replicate 16 0x0F0F0F0F) (List.replicate 16 0x00FF00FF)
      (by decide) (by decide)⟩

/-! ## `hashToHex` -/

theorem fmtSbx_foldl (b : List Byte) (acc : List Char) :
    b.foldl (fun buf c => buf ++ [ldigits.data.getD (c.val >>> 4) '0', ldigits.data.getD (c.val &&& 0xF) '0'])
        acc =
      acc ++ fmtSbx b := by
  induction b generalizing acc with
  | nil => simp [fmtSbx]
  | cons c cs ih =>
    rw [fmtSbx, List.foldl_cons, List.foldl_cons, ih, ih ([] ++ _), List.nil_append,
      List.append_assoc]

theorem fmtSbx_cons (c : Byte) (cs : List Byte) :
    fmtSbx (c :: cs) =
      ldigits.data.getD (c.val >>> 4) '0' :: ldigits.data.getD (c.val &&& 0xF) '0' :: fmtSbx cs := by
  rw [fmtSbx, List.foldl_cons, fmtSbx_foldl]
  rfl

theorem fmtSbx_length (b : List Byte) : (fmtSbx b).length = 2 * b.length := by
  induction b with
  | nil => rfl
  | cons c cs ih =>
    rw [fmtSbx_cons, List.length_cons, List.length_cons, List.length_cons, ih]
    omega

theorem ldigits_eq_digitChar (k : Nat) (hk : k < 16) :
    ldigits.data.getD k '0' = Nat.digitChar k ∧
      ((48 ≤ (ldigits.data.getD k '0').toNat ∧ (ldigits.data.getD k '0').toNat ≤ 57) ∨
        (97 ≤ (ldigits.data.getD k '0').toNat ∧ (ldigits.data.getD k '0').toNat ≤ 102)) := by
  interval_cases k <;> decide

theorem byte_high_nibble (c : Byte) : c.val >>> 4 = c.val / 16 ∧ c.val / 16 < 16 := by
  have := c.isLt
  rw [Nat.shiftRight_eq_div_pow]
  constructor
  · rfl
  · omega

theorem byte_low_nibble (c : Byte) : c.val &&& 0xF = c.val % 16 ∧ c.val % 16 < 16 := by
  constructor
  · exact Nat.and_pow_two_sub_one_eq_mod c.val 4
  · omega

theorem fmtSbx_getD (b : List Byte) : ∀ i, i < b.length →
    (fmtSbx b).getD (2 * i) '0' = Nat.digitChar ((b.getD i 0).val / 16) ∧
      (fmtSbx b).getD (2 * i + 1) '0' = Nat.digitChar ((b.getD i 0).val % 16) := by
  induction b with
  | nil => intro i hi; simp at hi
  | cons c cs ih =>
    intro i hi
    rw [fmtSbx_cons]
    cases i with
    | zero =>
      simp only [Nat.mul_zero, Nat.zero_add, List.getD_cons_zero, List.getD_cons_succ]
      rw [(byte_high_nibble c).1, (byte_low_nibble c).1]
      exact ⟨(ldigits_eq_digitChar _ (byte_high_nibble c).2).1,
        (ldigits_eq_digitChar _ (byte_low_nibble c).2).1⟩
    | succ i =>
      have e1 : 2 * (i + 1) = 2 * i + 1 + 1 := by omega
      rw [e1]
      simp only [List.getD_cons_succ]
      exact ih i (by simpa using hi)

theorem fmtSbx_mem (b : List Byte) : ∀ ch, ch ∈ fmtSbx b →
    (48 ≤ ch.toNat ∧ ch.toNat ≤ 57) ∨ (97 ≤ ch.toNat ∧ ch.toNat ≤ 102) := by
  induction b with
  | nil => intro ch h; simp [fmtSbx] at h
  | cons c cs ih =>
    intro ch h
    rw [fmtSbx_cons] at h
    rcases List.mem_cons.mp h with h1 | h1
    · rw [h1, (byte_high_nibble c).1]
      exact (ldigits_eq_digitChar _ (byte_high_nibble c).2).2
    · rcases List.mem_cons.mp h1 with h2 | h2
      · rw [h2, (byte_low_nibble c).1]
        exact (ldigits_eq_digitChar _ (byte_low_nibble c).2).2
      · exact ih ch h2

/-- C16. For every 20-byte digest `d`, `hashToHex d` is a string of exactly 40
characters, each one of `0-9` (codes 48-57) or `a-f` (codes 97-102), and for
`i` in `0 .. 19` the characters `2i` and `2i+1` are the hexadecimal digits of the
high and the low nibble of byte `d[i]`. -/
theorem hashToHex_format (d : List Byte) (hd : d.length = 20) :
    (hashToHex d).length = 40 ∧
    (∀ ch, ch ∈ (hashToHex d).data →
      (48 ≤ ch.toNat ∧ ch.toNat ≤ 57) ∨ (97 ≤ ch.toNat ∧ ch.toNat ≤ 102)) ∧
    (∀ i, i < 20 →
      (hashToHex d).data.getD (2 * i) '0' = Nat.digitChar ((d.getD i 0).val / 16) ∧
      (hashToHex d).data.getD (2 * i + 1) '0' = Nat.digitChar ((d.getD i 0).val % 16)) := by
  refine ⟨?_, fmtSbx_mem d, ?_⟩
  · show (fmtSbx d).length = 40
    rw [fmtSbx_length, hd]
  · intro i hi
    exact fmtSbx_getD d i (by omega)

theorem hashToHex_format_witness :
    (List.replicate 20 (0xab : Byte)).length = 20 ∧
    ((hashToHex (List.replicate 20 (0xab : Byte))).length = 40 ∧
    (∀ ch, ch ∈ (hashToHex (List.replicate 20 (0xab : Byte))).data →
      (48 ≤ ch.toNat ∧ ch.toNat ≤ 57) ∨ (97 ≤ ch.toNat ∧ ch.toNat ≤ 102)) ∧
    (∀ i, i < 20 →
      (hashToHex (List.replicate 20 (0xab : Byte))).data.getD (2 * i) '0' =
        Nat.digitChar (((List.replicate 20 (0xab : Byte)).getD i 0).val / 16) ∧
      (hashToHex (List.replicate 20 (0xab : Byte))).data.getD (2 * i + 1) '0' =
        Nat.digitChar (((List.replicate 20 (0xab : Byte)).getD i 0).val % 16))) :=
  ⟨by decide, hashToHex_format (List.replicate 20 (0xab : Byte)) (by decide)⟩

/-! ## Known answers -/

set_option maxRecDepth 100000

theorem sha0_of_one_block (st st1 : State) (M : List Byte)
    (hlen : (padMessage M).length = 64)
    (hp : processBlock (padMessage M) 0 st = some st1) :
    sha0 st M = some (digestOf st1, st1) := by
  have h1 : blockLoop (padMessage M) 0 st = some st1 := by
    rw [blockLoop_step _ 0 st st1 (by rw [hlen]; decide) hp,
      blockLoop_done _ _ _ (by rw [hlen]; decide)]
  simp only [sha0, h1]

theorem sha0_of_two_blocks (st st1 st2 : State) (M : List Byte)
    (hlen : (padMessage M).length = 128)
    (hp1 : processBlock (padMessage M) 0 st = some st1)
    (hp2 : processBlock (padMessage M) 64 st1 = some st2) :
    sha0 st M = some (digestOf st2, st2) := by
  have h1 : blockLoop (padMessage M) 0 st = some st2 := by
    rw [blockLoop_step _ 0 st st1 (by rw [hlen]; decide) hp1,
      blockLoop_step _ (0 + 64) st1 st2 (by rw [hlen]; decide) hp2,
      blockLoop_done _ _ _ (by rw [hlen]; decide)]
  simp only [sha0, h1]

theorem sha0_initState_nil :
    sha0 initState [] =
      some ([0xf9, 0x6c, 0xea, 0x19, 0x8a, 0xd1, 0xdd, 0x56, 0x17, 0xac,
             0x08, 0x4a, 0x3d, 0x92, 0xc6, 0x10, 0x77, 0x08, 0xc0, 0xef],
            ⟨0xf96cea19, 0x8ad1dd56, 0x17ac084a, 0x3d92c610, 0x7708c0ef⟩) := by
  rw [sha0_of_one_block initState ⟨0xf96cea19, 0x8ad1dd56, 0x17ac084a, 0x3d92c610, 0x7708c0ef⟩]
  · rfl
  · rw [padMessage_nil]
    rfl
  · rw [padMessage_nil]
    decide

theorem sha0_after_nil_nil :
    sha0 ⟨0xf96cea19, 0x8ad1dd56, 0x17ac084a, 0x3d92c610, 0x7708c0ef⟩ [] =
      some ([0x1f, 0x86, 0x7a, 0xbb, 0xa3, 0x5c, 0x7d, 0xda, 0xfb, 0x23,
             0x96, 0x37, 0x96, 0x8b, 0x69, 0x25, 0x91, 0x0b, 0x4e, 0x86],
            ⟨0x1f867abb, 0xa35c7dda, 0xfb239637, 0x968b6925, 0x910b4e86⟩) := by
  rw [sha0_of_one_block _ ⟨0x1f867abb, 0xa35c7dda, 0xfb239637, 0x968b6925, 0x910b4e86⟩]
  · rfl
  · rw [padMessage_nil]
    rfl
  · rw [padMessage_nil]
    decide

/-- C1. Called with `h0 .. h4` at their declared initial values, `sha0` of the three
bytes `"abc"` returns the digest `0164b8a914cd2a5e74c4f7ff082c4d97f1edf880`. -/
theorem sha0_abc :
    (sha0 initState [0x61, 0x62, 0x63]).map Prod.fst =
      some [0x01, 0x64, 0xb8, 0xa9, 0x14, 0xcd, 0x2a, 0x5e, 0x74, 0xc4,
            0xf7, 0xff, 0x08, 0x2c, 0x4d, 0x97, 0xf1, 0xed, 0xf8, 0x80] := by
  have hpad := padMessage_eq_of_small [0x61, 0x62, 0x63] (by decide)
  rw [sha0_of_one_block initState ⟨0x0164b8a9, 0x14cd2a5e, 0x74c4f7ff, 0x082c4d97, 0xf1edf880⟩]
  · rfl
  · rw [hpad]
    rfl
  · rw [hpad]
    decide

/-- C2. Called with `h0 .. h4` at their declared initial values, `sha0` of the empty
byte sequence returns the digest `f96cea198ad1dd5617ac084a3d92c6107708c0ef`. -/
theorem sha0_empty :
    (sha0 initState []).map Prod.fst =
      some [0xf9, 0x6c, 0xea, 0x19, 0x8a, 0xd1, 0xdd, 0x56, 0x17, 0xac,
            0x08, 0x4a, 0x3d, 0x92, 0xc6, 0x10, 0x77, 0x08, 0xc0, 0xef] := by
  rw [sha0_initState_nil]
  rfl

/-- C3. Called with `h0 .. h4` at their declared initial values, `sha0` of the 56
bytes `"abcdbcdecdefdefgefghfghighijhijkijkljklmklmnlmnomnopnopq"`, a message of
two blocks, returns the digest `d2516ee1acfa5baf33dfc1c471e438449ef134c8`. -/
theorem sha0_two_block_message :
    (sha0 initState
        [0x61, 0x62, 0x63, 0x64, 0x62, 0x63, 0x64, 0x65, 0x63, 0x64, 0x65, 0x66, 0x64, 0x65,
     0x66, 0x67, 0x65, 0x66, 0x67, 0x68, 0x66, 0x67, 0x68, 0x69, 0x67, 0x68, 0x69, 0x6a,
     0x68, 0x69, 0x6a, 0x6b, 0x69, 0x6a, 0x6b, 0x6c, 0x6a, 0x6b, 0x6c, 0x6d, 0x6b, 0x6c,
     0x6d, 0x6e, 0x6c, 0x6d, 0x6e, 0x6f, 0x6d, 0x6e, 0x6f, 0x70, 0x6e, 0x6f, 0x70, 0x71]).map Prod.fst =
      some [0xd2, 0x51, 0x6e, 0xe1, 0xac, 0xfa, 0x5b, 0xaf, 0x33, 0xdf,
            0xc1, 0xc4, 0x71, 0xe4, 0x38, 0x44, 0x9e, 0xf1, 0x34, 0xc8] := by
  have hpad := padMessage_eq_of_small
    [0x61, 0x62, 0x63, 0x64, 0x62, 0x63, 0x64, 0x65, 0x63, 0x64, 0x65, 0x66, 0x64, 0x65,
     0x66, 0x67, 0x65, 0x66, 0x67, 0x68, 0x66, 0x67, 0x68, 0x69, 0x67, 0x68, 0x69, 0x6a,
     0x68, 0x69, 0x6a, 0x6b, 0x69, 0x6a, 0x6b, 0x6c, 0x6a, 0x6b, 0x6c, 0x6d, 0x6b, 0x6c,
     0x6d, 0x6e, 0x6c, 0x6d, 0x6e, 0x6f, 0x6d, 0x6e, 0x6f, 0x70, 0x6e, 0x6f, 0x70, 0x71] (by decide)
  rw [sha0_of_two_blocks initState
    ⟨0x84ba2497, 0xa28b8359, 0xd9923034, 0xed6d15a3, 0x155bc413⟩
    ⟨0xd2516ee1, 0xacfa5baf, 0x33dfc1c4, 0x71e43844, 0x9ef134c8⟩]
  · rfl
  · rw [hpad]
    rfl
  · rw [hpad]
    decide
  · rw [hpad]
    decide

/-- C4. Hashing the empty message twice in a row, starting from the declared initial
values of `h0 .. h4`: the first call returns `f96cea19...c0ef`, the second call
starts from the words the first one left behind and returns `1f867abb...4e86`. -/
theorem sha0_empty_twice_differs :
    ∃ d1 s1 d2 s2, sha0 initState [] = some (d1, s1) ∧ sha0 s1 [] = some (d2, s2) ∧
      d1 = [0xf9, 0x6c, 0xea, 0x19, 0x8a, 0xd1, 0xdd, 0x56, 0x17, 0xac,
            0x08, 0x4a, 0x3d, 0x92, 0xc6, 0x10, 0x77, 0x08, 0xc0, 0xef] ∧
      d2 = [0x1f, 0x86, 0x7a, 0xbb, 0xa3, 0x5c, 0x7d, 0xda, 0xfb, 0x23,
            0x96, 0x37, 0x96, 0x8b, 0x69, 0x25, 0x91, 0x0b, 0x4e, 0x86] ∧
      d1 ≠ d2 :=
  ⟨_, _, _, _, sha0_initState_nil, sha0_after_nil_nil, rfl, rfl, by decide⟩

/-- C5. After `sha0` of the empty message, called with `h0 .. h4` at their declared
initial values, the package variables hold the words of the digest, not the
initial constants. -/
theorem sha0_empty_leaves_state :
    (sha0 initState []).map Prod.snd =
        some ⟨0xf96cea19, 0x8ad1dd56, 0x17ac084a, 0x3d92c610, 0x7708c0ef⟩ ∧
      (sha0 initState []).map Prod.snd ≠ some initState := by
  rw [sha0_initState_nil]
  exact ⟨rfl, by decide⟩

end Sha0
